import Mathlib

/-!
Shallow embedding of the ai-news-collector pipeline
(`scripts/fetch_rss.py`, `scripts/ai_processor.py`,
`scripts/report_generator.py`) and proofs of the specification claims.

External effects (HTTP transport, feed parsing, JSON decoding of the
remote model's reply) are abstracted as oracle parameters; everything the
repository's own code computes is embedded as executable Lean functions.
-/

namespace AINews

/-- A configured RSS source (`config/rss_sources.json` entry). -/
structure Source where
  name : String
  url : String
  category : String
  language : String
  enabled : Bool
deriving DecidableEq, Repr

/-- A normalized article record as built by `RSSFetcher._parse_entry` and
later enriched in place by `AIProcessor` (`article.update(analysis)`).
Analysis fields are `Option`-valued: `none` means the dict key is absent. -/
structure Article where
  title : String
  link : String
  content : String
  summary : String
  published : Nat
  source : String
  source_category : String
  language : String
  authors : List String
  tags : List String
  category : Option String
  hot_score : Option Int
  keywords : Option (List String)
  reasoning : Option String
deriving DecidableEq, Repr

/-! ## Fetcher (`scripts/fetch_rss.py`) -/

/-- Outcome of the HTTP-fetch-and-feedparse step for one source, which is
external to the repository's code: either a transport error
(`requests.exceptions.RequestException` or any other exception) or a list
of parsed entries, where `none` stands for an entry that
`_parse_entry` failed to parse (it returns `None` and is skipped). -/
inductive FetchOutcome where
  | transportError
  | ok (entries : List (Option Article))
deriving DecidableEq, Repr

/-- `RSSFetcher.fetch_feed`: on any exception return the articles collected
so far (the empty list, since the exception happens at the request);
on success keep exactly the entries `_parse_entry` could parse. -/
def fetch_feed (oracle : Source → FetchOutcome) (s : Source) : List Article :=
  match oracle s with
  | .transportError => []
  | .ok entries => entries.filterMap id

/-- `RSSFetcher.fetch_all`: loop over the sources, extending one
accumulating list with each source's articles. -/
def fetch_all (oracle : Source → FetchOutcome) (sources : List Source) : List Article :=
  sources.foldl (fun acc s => acc ++ fetch_feed oracle s) []

/-- The deduplication key of `RSSFetcher.deduplicate`: `(title, link)`. -/
def dedupKey (a : Article) : String × String := (a.title, a.link)

/-- The loop of `RSSFetcher.deduplicate`, with the Python `seen` set
modelled as the list of keys inserted so far. -/
def dedupGo (seen : List (String × String)) : List Article → List Article
  | [] => []
  | a :: rest =>
    if dedupKey a ∈ seen then dedupGo seen rest
    else a :: dedupGo (dedupKey a :: seen) rest

/-- `RSSFetcher.deduplicate`: keep the first article seen for each
`(title, link)` key. -/
def deduplicate (articles : List Article) : List Article :=
  dedupGo [] articles

/-! ## Classifier (`scripts/ai_processor.py`) -/

/-- The value found under `hot_score` in the decoded JSON reply, as seen by
Python's `int(...)`: either it coerces to an integer (ints, numeric
strings, floats after truncation, booleans) or `int()` raises. -/
inductive JsonNumLike where
  | coercible (n : Int)
  | uncoercible
deriving DecidableEq, Repr

/-- The JSON object decoded from the model reply; `none` is an absent key
(`result.get(...)` falls back to its default). -/
structure ReplyJson where
  category : Option String
  summary : Option String
  hot_score : Option JsonNumLike
  keywords : Option (List String)
  reasoning : Option String
deriving DecidableEq, Repr

/-- Outcome of the remote classification call for one article, which is
external to the repository's code: transport / HTTP error
(`requests` exception or `raise_for_status`), a reply whose content is not
valid JSON after fence stripping (`json.JSONDecodeError`), or a decoded
JSON object. -/
inductive ApiOutcome where
  | transportError
  | badJson
  | ok (r : ReplyJson)
deriving DecidableEq, Repr

/-- The classification result dict produced by `AIProcessor._analyze_article`
or `AIProcessor._get_default_analysis`. -/
structure Analysis where
  category : String
  summary : String
  hot_score : Int
  keywords : List String
  reasoning : String
deriving DecidableEq, Repr

/-- The fixed fallback category used throughout `ai_processor.py` and
`report_generator.py`. -/
def fallbackCategory : String := "行业动态"

/-- The fixed unavailable marker of `_get_default_analysis`. -/
def unavailableMarker : String := "AI不可用"

/-- `AIProcessor._get_default_analysis`: fixed fallback category, the
article's own summary, score 50, first 3 of the article's tags (the
`if article.get('tags')` guard yields `[]` exactly when `tags` is empty,
which `take 3` already does), fixed marker. -/
def getDefaultAnalysis (a : Article) : Analysis :=
  { category := fallbackCategory
    summary := a.summary
    hot_score := 50
    keywords := a.tags.take 3
    reasoning := unavailableMarker }

/-- Python `int(x)` on the reply's `hot_score` value: `some` when it
coerces, `none` when `int()` raises (caught by the outer
`except Exception`, which falls back to the default analysis). -/
def coerceInt : JsonNumLike → Option Int
  | .coercible n => some n
  | .uncoercible => none

/-- `AIProcessor._analyze_article` after the reply has been obtained:
on transport error or undecodable JSON, the default analysis; on a decoded
reply, build the validated analysis — `result.get` defaults, clamp
`min(100, max(0, int(...)))`, `keywords[:5]` — unless `int()` raises,
in which case the outer handler returns the default analysis. -/
def analyzeArticle (a : Article) (out : ApiOutcome) : Analysis :=
  match out with
  | .transportError => getDefaultAnalysis a
  | .badJson => getDefaultAnalysis a
  | .ok r =>
    match coerceInt (r.hot_score.getD (.coercible 50)) with
    | none => getDefaultAnalysis a
    | some n =>
      { category := r.category.getD fallbackCategory
        summary := r.summary.getD (a.summary.take 100)
        hot_score := min 100 (max 0 n)
        keywords := (r.keywords.getD []).take 5
        reasoning := r.reasoning.getD "" }

/-- `article.update(analysis)`: overwrite the five analysis keys, leaving
every other field of the dict untouched. -/
def applyAnalysis (a : Article) (an : Analysis) : Article :=
  { a with
    category := some an.category
    summary := an.summary
    hot_score := some an.hot_score
    keywords := some an.keywords
    reasoning := some an.reasoning }

/-- `AIProcessor.process_batch` (the `time.sleep` is a pure delay):
analyze each article of the batch and update it in place, returning the
batch in order. -/
def processBatch (oracle : Article → ApiOutcome) (batch : List Article) : List Article :=
  batch.map (fun a => applyAnalysis a (analyzeArticle a (oracle a)))

/-- The batching loop of `AIProcessor.process_all`
(`for i in range(0, len(articles), self.batch_size)` with
`batch_size = 5`), accumulating `process_batch` results. -/
def processBatches (oracle : Article → ApiOutcome) (articles : List Article) : List Article :=
  if h : articles.isEmpty then []
  else processBatch oracle (articles.take 5) ++ processBatches oracle (articles.drop 5)
termination_by articles.length
decreasing_by
  simp only [List.isEmpty_iff, ← List.length_eq_zero] at h
  simp only [List.length_drop]
  omega

/-- Python truthiness of `self.api_key` (`if not self.api_key`): absent or
empty string counts as not configured. -/
def keyConfigured : Option String → Bool
  | none => false
  | some s => !s.isEmpty

/-- `AIProcessor.process_all`: without a configured key, update every
article in place with the default analysis, never consulting the remote
service; otherwise run the batching loop. -/
def process_all (apiKey : Option String) (oracle : Article → ApiOutcome)
    (articles : List Article) : List Article :=
  if keyConfigured apiKey then processBatches oracle articles
  else articles.map (fun a => applyAnalysis a (getDefaultAnalysis a))

/-- `a.get('hot_score', 0)` as used by filter, sort and the report. -/
def hotOf (a : Article) : Int := a.hot_score.getD 0

/-- `AIProcessor.filter_by_hot_score`: list comprehension keeping articles
with `hot_score >= threshold`. -/
def filter_by_hot_score (articles : List Article) (threshold : Int) : List Article :=
  articles.filter (fun a => decide (threshold ≤ hotOf a))

/-- Stable descending insertion: place `a` before the first element whose
score is `≤` its own, keeping every strictly-greater element ahead of it.
This is the specification of Python's stable `sorted(..., reverse=True)`
restricted to one insertion. -/
def insertDesc (a : Article) : List Article → List Article
  | [] => [a]
  | b :: rest =>
    if hotOf b ≤ hotOf a then a :: b :: rest
    else b :: insertDesc a rest

/-- `AIProcessor.sort_by_hot_score` with the default `reverse=True`:
Python's `sorted` is a stable sort by `x.get('hot_score', 0)`; with
`reverse=True` it yields non-increasing scores with ties in original
order, embedded here as a stable insertion sort. -/
def sort_by_hot_score (articles : List Article) : List Article :=
  articles.foldr insertDesc []

/-! ## Report generator (`scripts/report_generator.py`) -/

/-- The fixed `category_order` list of `generate_report`. -/
def categoryOrder : List String :=
  ["重大新闻", "行业动态", "产品发布", "技术干货", "观点评论"]

/-- `article.get('category', '行业动态')`: the bucket an article lands in. -/
def effCat (a : Article) : String := a.category.getD fallbackCategory

/-- One step of the grouping loop of `generate_report`: append the article
to its category's bucket, creating the bucket at the end of the
(insertion-ordered) dict when the category is not yet a key. -/
def addToBuckets (bs : List (String × List Article)) (a : Article) :
    List (String × List Article) :=
  if bs.any (fun p => p.1 = effCat a) then
    bs.map (fun p => if p.1 = effCat a then (p.1, p.2 ++ [a]) else p)
  else bs ++ [(effCat a, [a])]

/-- The `categories` dict of `generate_report` before the per-bucket sort:
seeded with the five canonical categories (empty buckets, fixed order),
then filled by the grouping loop. -/
def rawBuckets (articles : List Article) : List (String × List Article) :=
  articles.foldl addToBuckets (categoryOrder.map (fun c => (c, [])))

/-- The `categories` dict after
`categories[cat].sort(key=..., reverse=True)`: each bucket stably sorted
by descending `hot_score`. -/
def reportBuckets (articles : List Article) : List (String × List Article) :=
  (rawBuckets articles).map (fun p => (p.1, sort_by_hot_score p.2))

/-- Python `set(...)` over the generator `a.get('source', '')`,
modelled as insertion-ordered distinct elements (only its size is used). -/
def pySet (l : List String) : List String :=
  l.foldl (fun acc x => if x ∈ acc then acc else acc ++ [x]) []

/-- The aggregate statistics computed by `generate_report`; the float
average is embedded exactly as a rational. -/
structure ReportStats where
  total_articles : Nat
  avg_hot_score : ℚ
  total_sources : Nat
  total_categories : Nat
deriving DecidableEq, Repr

/-- The statistics block of `generate_report` (lines 361-365). -/
def generateStats (articles : List Article) : ReportStats :=
  { total_articles := articles.length
    avg_hot_score :=
      if articles.isEmpty then 0
      else ((articles.map hotOf).sum : ℚ) / (articles.length : ℚ)
    total_sources := (pySet (articles.map (fun a => a.source))).length
    total_categories :=
      ((reportBuckets articles).filter (fun p => !p.2.isEmpty)).length }

/-! ## Reply-text cleaning (`_analyze_article` lines 84, 89-95)

Modelled on `List Char` so that Python's `startswith` / `endswith` /
`strip` / slicing can be embedded exactly. -/

/-- The backtick character. -/
def btick : Char := '\x60'

/-- `"```json"` as a character list. -/
def fenceJson : List Char := [btick, btick, btick, 'j', 's', 'o', 'n']

/-- `"```"` as a character list. -/
def fence3 : List Char := [btick, btick, btick]

/-- The whitespace characters stripped by Python's `str.strip()`
(restricted to ASCII, which covers every character this code produces). -/
def isPyWS (c : Char) : Bool :=
  c = ' ' || c = '\t' || c = '\n' || c = '\r' || c = '\x0b' || c = '\x0c'

/-- Python `str.strip()`. -/
def pyStrip (l : List Char) : List Char :=
  ((l.dropWhile isPyWS).reverse.dropWhile isPyWS).reverse

/-- Python `str.startswith`. -/
def startsWithChars : List Char → List Char → Bool
  | [], _ => true
  | _ :: _, [] => false
  | p :: ps, c :: cs => p == c && startsWithChars ps cs

/-- Python `str.endswith`. -/
def endsWithChars (pat l : List Char) : Bool :=
  startsWithChars pat.reverse l.reverse

/-- Lines 84 and 89-95 of `ai_processor.py`: strip the reply, peel a
leading ```` ```json ```` (7 chars) or ```` ``` ```` (3 chars), peel a
trailing ```` ``` ````, strip again. The result is what `json.loads`
receives. -/
def cleanResultText (raw : List Char) : List Char :=
  let t0 := pyStrip raw
  let t1 := if startsWithChars fenceJson t0 then t0.drop 7 else t0
  let t2 := if startsWithChars fence3 t1 then t1.drop 3 else t1
  let t3 := if endsWithChars fence3 t2 then t2.take (t2.length - 3) else t2
  pyStrip t3

/-! ## Sample data for witnesses -/

/-- A concrete article used by witness theorems. -/
def sampleArticle : Article :=
  { title := "t", link := "l", content := "c", summary := "s"
    published := 0, source := "src", source_category := "sc"
    language := "zh", authors := [], tags := ["a", "b", "c", "d"]
    category := none, hot_score := none, keywords := none, reasoning := none }

/-- A second concrete article (same dedup key as `sampleArticle`). -/
def sampleDup : Article := { sampleArticle with content := "other" }

/-- A third concrete article with a different dedup key and a score. -/
def sampleOther : Article :=
  { sampleArticle with title := "t2", link := "l2", hot_score := some 80 }

/-! ## C1: deduplication -/

theorem dedupGo_sublist (seen : List (String × String)) (l : List Article) :
    (dedupGo seen l).Sublist l := by
  induction l generalizing seen with
  | nil => simp [dedupGo]
  | cons a rest ih =>
    simp only [dedupGo]
    split
    · exact (ih seen).cons a
    · exact (ih (dedupKey a :: seen)).cons₂ a

theorem mem_dedupGo_key_notin_seen (seen : List (String × String))
    (l : List Article) (x : Article) (hx : x ∈ dedupGo seen l) :
    dedupKey x ∉ seen := by
  induction l generalizing seen with
  | nil => simp [dedupGo] at hx
  | cons a rest ih =>
    simp only [dedupGo] at hx
    split at hx
    · exact ih seen hx
    · rcases List.mem_cons.mp hx with rfl | hx'
      · assumption
      · have := ih (dedupKey a :: seen) hx'
        exact fun hmem => this (List.mem_cons_of_mem _ hmem)

theorem dedupGo_keys_nodup (seen : List (String × String)) (l : List Article) :
    ((dedupGo seen l).map dedupKey).Nodup := by
  induction l generalizing seen with
  | nil => simp [dedupGo]
  | cons a rest ih =>
    simp only [dedupGo]
    split
    · exact ih seen
    · simp only [List.map_cons, List.nodup_cons]
      refine ⟨?_, ih (dedupKey a :: seen)⟩
      intro hmem
      rcases List.mem_map.mp hmem with ⟨y, hy, hkey⟩
      have := mem_dedupGo_key_notin_seen _ _ y hy
      exact this (by rw [hkey]; exact List.mem_cons_self _ _)

theorem dedupGo_find (seen : List (String × String)) (l : List Article)
    (x : Article) (hx : x ∈ dedupGo seen l) :
    l.find? (fun a => dedupKey a == dedupKey x) = some x := by
  induction l generalizing seen with
  | nil => simp [dedupGo] at hx
  | cons a rest ih =>
    simp only [dedupGo] at hx
    by_cases hin : dedupKey a ∈ seen
    · rw [if_pos hin] at hx
      have hne : dedupKey a ≠ dedupKey x := by
        intro he
        exact mem_dedupGo_key_notin_seen seen rest x hx (he ▸ hin)
      rw [List.find?_cons_of_neg _ (by simp [hne])]
      exact ih seen hx
    · rw [if_neg hin] at hx
      rcases List.mem_cons.mp hx with rfl | hx'
      · exact List.find?_cons_of_pos _ (by simp)
      · have hnotin := mem_dedupGo_key_notin_seen _ _ x hx'
        have hne : dedupKey a ≠ dedupKey x := by
          intro he
          exact hnotin (he ▸ List.mem_cons_self _ _)
        rw [List.find?_cons_of_neg _ (by simp [hne])]
        exact ih (dedupKey a :: seen) hx'

theorem dedupGo_complete (seen : List (String × String)) (l : List Article)
    (a : Article) (ha : a ∈ l) :
    dedupKey a ∈ seen ∨ dedupKey a ∈ (dedupGo seen l).map dedupKey := by
  induction l generalizing seen with
  | nil => simp at ha
  | cons b rest ih =>
    simp only [dedupGo]
    by_cases hin : dedupKey b ∈ seen
    · rw [if_pos hin]
      rcases List.mem_cons.mp ha with rfl | ha'
      · exact Or.inl hin
      · exact ih seen ha'
    · rw [if_neg hin]
      rcases List.mem_cons.mp ha with rfl | ha'
      · right
        simp
      · rcases ih (dedupKey b :: seen) ha' with h | h
        · rcases List.mem_cons.mp h with he | hseen
          · right
            simp [he]
          · exact Or.inl hseen
        · right
          simp only [List.map_cons, List.mem_cons]
          exact Or.inr h

/-- C1: `deduplicate` returns a list with pairwise-distinct
`(title, link)` keys, no longer than its input, that is a sublist of the
input (hence first occurrences keep their original relative order), in
which every element is the first occurrence of its key in the input, and
in which every input key is represented. -/
theorem deduplicate_spec (l : List Article) :
    ((deduplicate l).map dedupKey).Nodup ∧
    (deduplicate l).length ≤ l.length ∧
    (deduplicate l).Sublist l ∧
    (∀ x ∈ deduplicate l,
      l.find? (fun a => dedupKey a == dedupKey x) = some x) ∧
    (∀ a ∈ l, dedupKey a ∈ (deduplicate l).map dedupKey) := by
  refine ⟨dedupGo_keys_nodup [] l, (dedupGo_sublist [] l).length_le,
    dedupGo_sublist [] l, fun x hx => dedupGo_find [] l x hx, fun a ha => ?_⟩
  rcases dedupGo_complete [] l a ha with h | h
  · simp at h
  · exact h

/-- Witness for C1 at a concrete three-element list containing a
duplicate key. -/
theorem deduplicate_spec_witness :
    ((deduplicate [sampleArticle, sampleDup, sampleOther]).map dedupKey).Nodup ∧
    (deduplicate [sampleArticle, sampleDup, sampleOther]).length ≤ 3 ∧
    (deduplicate [sampleArticle, sampleDup, sampleOther]).Sublist
      [sampleArticle, sampleDup, sampleOther] ∧
    (∀ x ∈ deduplicate [sampleArticle, sampleDup, sampleOther],
      [sampleArticle, sampleDup, sampleOther].find?
        (fun a => dedupKey a == dedupKey x) = some x) ∧
    (∀ a ∈ [sampleArticle, sampleDup, sampleOther],
      dedupKey a ∈ (deduplicate [sampleArticle, sampleDup, sampleOther]).map dedupKey) :=
  deduplicate_spec [sampleArticle, sampleDup, sampleOther]

/-! ## Classifier lemmas -/

/-- The batching loop visits every article exactly once, in order:
`take 5 ++ drop 5` recomposes the list. -/
theorem processBatches_eq_map (oracle : Article → ApiOutcome) (l : List Article) :
    processBatches oracle l =
      l.map (fun a => applyAnalysis a (analyzeArticle a (oracle a))) := by
  unfold processBatches
  split
  · rename_i h
    rw [List.isEmpty_iff] at h
    subst h
    simp
  · rw [processBatches_eq_map oracle (l.drop 5), processBatch,
      ← List.map_append, List.take_append_drop]
termination_by l.length
decreasing_by
  rename_i h
  rw [List.isEmpty_iff, ← List.length_eq_zero] at h
  simp only [List.length_drop]
  omega

/-- Both branches of `process_all` are a pointwise update of the input. -/
theorem process_all_eq_map (apiKey : Option String)
    (oracle : Article → ApiOutcome) (l : List Article) :
    process_all apiKey oracle l =
      l.map (fun a => applyAnalysis a
        (if keyConfigured apiKey then analyzeArticle a (oracle a)
         else getDefaultAnalysis a)) := by
  unfold process_all
  by_cases h : keyConfigured apiKey
  · simp only [h, if_true, processBatches_eq_map]
  · simp only [h, if_false, Bool.false_eq_true, if_neg not_false]

theorem clamp_bounds (n : Int) : 0 ≤ min 100 (max 0 n) ∧ min 100 (max 0 n) ≤ 100 :=
  ⟨le_min (by norm_num) (le_max_left 0 n), min_le_left 100 (max 0 n)⟩

/-! ## C2: hot_score clamping -/

/-- C2: whatever the remote call yields, the stored `hot_score` is an
integer in `[0, 100]`; it is exactly 50 when the reply is undecodable
JSON, when the decoded reply lacks `hot_score`, or when the value does
not coerce to an integer; and every article coming out of `process_all`
carries a `hot_score` in `[0, 100]`. -/
theorem hot_score_invariant (a : Article) (out : ApiOutcome) :
    (0 ≤ (analyzeArticle a out).hot_score ∧
      (analyzeArticle a out).hot_score ≤ 100) ∧
    (out = .badJson → (analyzeArticle a out).hot_score = 50) ∧
    (∀ r : ReplyJson, out = .ok r → r.hot_score = none →
      (analyzeArticle a out).hot_score = 50) ∧
    (∀ r : ReplyJson, out = .ok r → r.hot_score = some .uncoercible →
      (analyzeArticle a out).hot_score = 50) ∧
    (∀ (k : Option String) (oracle : Article → ApiOutcome) (l : List Article),
      ∀ x ∈ process_all k oracle l,
        ∃ v, x.hot_score = some v ∧ 0 ≤ v ∧ v ≤ 100) := by
  have hbounds : ∀ (a' : Article) (out' : ApiOutcome),
      0 ≤ (analyzeArticle a' out').hot_score ∧
        (analyzeArticle a' out').hot_score ≤ 100 := by
    intro a' out'
    cases out' with
    | transportError => simp [analyzeArticle, getDefaultAnalysis]
    | badJson => simp [analyzeArticle, getDefaultAnalysis]
    | ok r =>
      cases hc : coerceInt (r.hot_score.getD (.coercible 50)) with
      | none => simp [analyzeArticle, hc, getDefaultAnalysis]
      | some n =>
        simp only [analyzeArticle, hc]
        exact clamp_bounds n
  refine ⟨hbounds a out, ?_, ?_, ?_, ?_⟩
  · rintro rfl
    simp [analyzeArticle, getDefaultAnalysis]
  · rintro r rfl hnone
    simp [analyzeArticle, hnone, coerceInt]
  · rintro r rfl hunc
    simp [analyzeArticle, hunc, coerceInt, getDefaultAnalysis]
  · intro k oracle l x hx
    rw [process_all_eq_map] at hx
    rcases List.mem_map.mp hx with ⟨a', _, rfl⟩
    by_cases hk : keyConfigured k
    · refine ⟨(analyzeArticle a' (oracle a')).hot_score, ?_, ?_, ?_⟩
      · simp [hk, applyAnalysis]
      · exact (hbounds a' (oracle a')).1
      · exact (hbounds a' (oracle a')).2
    · exact ⟨50, by simp [hk, applyAnalysis, getDefaultAnalysis], by norm_num, by norm_num⟩

/-- Witness for C2 at a concrete article and an out-of-range reply. -/
theorem hot_score_invariant_witness :
    (0 ≤ (analyzeArticle sampleArticle
        (.ok ⟨none, none, some (.coercible 250), none, none⟩)).hot_score ∧
      (analyzeArticle sampleArticle
        (.ok ⟨none, none, some (.coercible 250), none, none⟩)).hot_score ≤ 100) ∧
    ((.ok ⟨none, none, some (.coercible 250), none, none⟩ : ApiOutcome) = .badJson →
      (analyzeArticle sampleArticle
        (.ok ⟨none, none, some (.coercible 250), none, none⟩)).hot_score = 50) ∧
    (∀ r : ReplyJson,
      (.ok ⟨none, none, some (.coercible 250), none, none⟩ : ApiOutcome) = .ok r →
      r.hot_score = none →
      (analyzeArticle sampleArticle
        (.ok ⟨none, none, some (.coercible 250), none, none⟩)).hot_score = 50) ∧
    (∀ r : ReplyJson,
      (.ok ⟨none, none, some (.coercible 250), none, none⟩ : ApiOutcome) = .ok r →
      r.hot_score = some .uncoercible →
      (analyzeArticle sampleArticle
        (.ok ⟨none, none, some (.coercible 250), none, none⟩)).hot_score = 50) ∧
    (∀ (k : Option String) (oracle : Article → ApiOutcome) (l : List Article),
      ∀ x ∈ process_all k oracle l,
        ∃ v, x.hot_score = some v ∧ 0 ≤ v ∧ v ≤ 100) :=
  hot_score_invariant sampleArticle (.ok ⟨none, none, some (.coercible 250), none, none⟩)

/-! ## C3: default processing without a credential -/

/-- A concrete oracle that always fails at transport. -/
def oracleFail : Article → ApiOutcome := fun _ => .transportError

/-- A concrete oracle that always returns undecodable JSON. -/
def oracleBadJson : Article → ApiOutcome := fun _ => .badJson

/-- C3: with no configured credential, `process_all` is independent of the
remote service (no call is attempted), keeps the list's length, and gives
every article the default analysis: fallback category, score 50, the
unavailable marker, its own summary, and the first 3 of its own tags. -/
theorem process_all_no_key (k : Option String)
    (oracle oracle' : Article → ApiOutcome) (l : List Article)
    (h : keyConfigured k = false) :
    process_all k oracle l = process_all k oracle' l ∧
    (process_all k oracle l).length = l.length ∧
    ∀ i (h1 : i < (process_all k oracle l).length) (h2 : i < l.length),
      ((process_all k oracle l).get ⟨i, h1⟩).category = some fallbackCategory ∧
      ((process_all k oracle l).get ⟨i, h1⟩).hot_score = some 50 ∧
      ((process_all k oracle l).get ⟨i, h1⟩).reasoning = some unavailableMarker ∧
      ((process_all k oracle l).get ⟨i, h1⟩).summary = (l.get ⟨i, h2⟩).summary ∧
      ((process_all k oracle l).get ⟨i, h1⟩).keywords =
        some ((l.get ⟨i, h2⟩).tags.take 3) := by
  have hmap : ∀ o : Article → ApiOutcome, process_all k o l =
      l.map (fun a => applyAnalysis a (getDefaultAnalysis a)) := by
    intro o
    rw [process_all_eq_map]
    simp [h]
  refine ⟨(hmap oracle).trans (hmap oracle').symm, by rw [hmap]; simp, ?_⟩
  intro i h1 h2
  have hget : (process_all k oracle l).get ⟨i, h1⟩ =
      applyAnalysis (l.get ⟨i, h2⟩) (getDefaultAnalysis (l.get ⟨i, h2⟩)) := by
    rw [List.get_of_eq (hmap oracle)]
    simp
  rw [hget]
  simp [applyAnalysis, getDefaultAnalysis]

/-- Witness for C3: one concrete article, no key, two different oracles. -/
theorem process_all_no_key_witness :
    process_all none oracleFail [sampleArticle] =
      process_all none oracleBadJson [sampleArticle] ∧
    (process_all none oracleFail [sampleArticle]).length = [sampleArticle].length ∧
    ∀ i (h1 : i < (process_all none oracleFail [sampleArticle]).length)
      (h2 : i < [sampleArticle].length),
      ((process_all none oracleFail [sampleArticle]).get ⟨i, h1⟩).category =
        some fallbackCategory ∧
      ((process_all none oracleFail [sampleArticle]).get ⟨i, h1⟩).hot_score = some 50 ∧
      ((process_all none oracleFail [sampleArticle]).get ⟨i, h1⟩).reasoning =
        some unavailableMarker ∧
      ((process_all none oracleFail [sampleArticle]).get ⟨i, h1⟩).summary =
        ([sampleArticle].get ⟨i, h2⟩).summary ∧
      ((process_all none oracleFail [sampleArticle]).get ⟨i, h1⟩).keywords =
        some (([sampleArticle].get ⟨i, h2⟩).tags.take 3) :=
  process_all_no_key none oracleFail oracleBadJson [sampleArticle] rfl

/-! ## C4: success-path validation (corrected) -/

/-- The all-fields-absent decoded reply, used as the C4 counterexample. -/
def emptyReply : ReplyJson := ⟨none, none, none, none, none⟩

/-- C4 as stated is false: on a decoded reply with missing fields the
success path does NOT substitute the same defaults as
`_get_default_analysis` — reasoning defaults to `""` instead of the
unavailable marker, and keywords default to `[]` instead of the
article's tags. -/
theorem analyze_ok_defaults_counterexample :
    (analyzeArticle sampleArticle (.ok emptyReply)).reasoning = "" ∧
    (getDefaultAnalysis sampleArticle).reasoning = unavailableMarker ∧
    (analyzeArticle sampleArticle (.ok emptyReply)).keywords = [] ∧
    (getDefaultAnalysis sampleArticle).keywords = ["a", "b", "c"] ∧
    (analyzeArticle sampleArticle (.ok emptyReply)).reasoning ≠
      (getDefaultAnalysis sampleArticle).reasoning ∧
    (analyzeArticle sampleArticle (.ok emptyReply)).keywords ≠
      (getDefaultAnalysis sampleArticle).keywords := by
  refine ⟨rfl, rfl, rfl, rfl, ?_, ?_⟩ <;> decide

/-- C4 amended: on a decoded reply whose `hot_score` coerces to an integer
(or is absent), the classifier clamps `hot_score` into `[0,100]` (50 when
absent), truncates keywords to at most 5, uses present category / summary /
hot_score / keywords / reasoning values verbatim (modulo clamp and
truncation), and substitutes for missing fields: the fallback category,
the article's summary truncated to 100 characters, score 50, the empty
keyword list, and the empty string as reasoning. -/
theorem analyze_ok_spec (a : Article) (r : ReplyJson)
    (h : r.hot_score ≠ some .uncoercible) :
    (0 ≤ (analyzeArticle a (.ok r)).hot_score ∧
      (analyzeArticle a (.ok r)).hot_score ≤ 100) ∧
    (analyzeArticle a (.ok r)).keywords.length ≤ 5 ∧
    (∀ c, r.category = some c → (analyzeArticle a (.ok r)).category = c) ∧
    (∀ s, r.summary = some s → (analyzeArticle a (.ok r)).summary = s) ∧
    (∀ n, r.hot_score = some (.coercible n) →
      (analyzeArticle a (.ok r)).hot_score = min 100 (max 0 n)) ∧
    (∀ ks, r.keywords = some ks → (analyzeArticle a (.ok r)).keywords = ks.take 5) ∧
    (∀ s, r.reasoning = some s → (analyzeArticle a (.ok r)).reasoning = s) ∧
    (r.category = none → (analyzeArticle a (.ok r)).category = fallbackCategory) ∧
    (r.summary = none → (analyzeArticle a (.ok r)).summary = a.summary.take 100) ∧
    (r.hot_score = none → (analyzeArticle a (.ok r)).hot_score = 50) ∧
    (r.keywords = none → (analyzeArticle a (.ok r)).keywords = []) ∧
    (r.reasoning = none → (analyzeArticle a (.ok r)).reasoning = "") := by
  have hcoerce : ∃ n : Int, coerceInt (r.hot_score.getD (.coercible 50)) = some n := by
    cases hr : r.hot_score with
    | none => exact ⟨50, by simp [coerceInt]⟩
    | some v =>
      cases v with
      | coercible n => exact ⟨n, by simp [coerceInt]⟩
      | uncoercible => exact absurd hr h
  rcases hcoerce with ⟨n, hn⟩
  have hval : analyzeArticle a (.ok r) =
      { category := r.category.getD fallbackCategory
        summary := r.summary.getD (a.summary.take 100)
        hot_score := min 100 (max 0 n)
        keywords := (r.keywords.getD []).take 5
        reasoning := r.reasoning.getD "" } := by
    simp [analyzeArticle, hn]
  rw [hval]
  refine ⟨clamp_bounds n, ?_, ?_, ?_, ?_, ?_, ?_, ?_, ?_, ?_, ?_, ?_⟩
  · simpa using min_le_left 5 (r.keywords.getD []).length
  · intro c hc
    simp [hc]
  · intro s hs
    simp [hs]
  · intro m hm
    rw [hm] at hn
    simp [coerceInt] at hn
    simp [hn]
  · intro ks hks
    simp [hks]
  · intro s hs
    simp [hs]
  · intro hc
    simp [hc]
  · intro hs
    simp [hs]
  · intro hm
    rw [hm] at hn
    simp [coerceInt] at hn
    simp [← hn]
  · intro hks
    simp [hks]
  · intro hs
    simp [hs]

/-- Witness for the amended C4 at a concrete reply with an out-of-range
score and six keywords. -/
theorem analyze_ok_spec_witness :
    ((⟨some "产品发布", some "sum", some (.coercible 250),
        some ["k1", "k2", "k3", "k4", "k5", "k6"], some "why"⟩ : ReplyJson).hot_score ≠
      some .uncoercible) ∧
    (0 ≤ (analyzeArticle sampleArticle (.ok ⟨some "产品发布", some "sum",
        some (.coercible 250), some ["k1", "k2", "k3", "k4", "k5", "k6"],
        some "why"⟩)).hot_score ∧
      (analyzeArticle sampleArticle (.ok ⟨some "产品发布", some "sum",
        some (.coercible 250), some ["k1", "k2", "k3", "k4", "k5", "k6"],
        some "why"⟩)).hot_score ≤ 100) ∧
    (analyzeArticle sampleArticle (.ok ⟨some "产品发布", some "sum",
        some (.coercible 250), some ["k1", "k2", "k3", "k4", "k5", "k6"],
        some "why"⟩)).keywords.length ≤ 5 :=
  have h : (⟨some "产品发布", some "sum", some (.coercible 250),
      some ["k1", "k2", "k3", "k4", "k5", "k6"], some "why"⟩ : ReplyJson).hot_score ≠
      some .uncoercible := by decide
  have hs := analyze_ok_spec sampleArticle
    ⟨some "产品发布", some "sum", some (.coercible 250),
      some ["k1", "k2", "k3", "k4", "k5", "k6"], some "why"⟩ h
  ⟨h, hs.1, hs.2.1⟩

/-! ## C5: filter and stable sort -/

theorem insertDesc_perm (a : Article) (l : List Article) :
    (insertDesc a l).Perm (a :: l) := by
  induction l with
  | nil => simp [insertDesc]
  | cons b rest ih =>
    simp only [insertDesc]
    split
    · exact List.Perm.refl _
    · exact (ih.cons b).trans (List.Perm.swap a b rest)

theorem mem_insertDesc (a x : Article) (l : List Article) :
    x ∈ insertDesc a l ↔ x = a ∨ x ∈ l := by
  rw [(insertDesc_perm a l).mem_iff, List.mem_cons]

theorem insertDesc_sorted (a : Article) (l : List Article)
    (h : l.Pairwise (fun x y => hotOf y ≤ hotOf x)) :
    (insertDesc a l).Pairwise (fun x y => hotOf y ≤ hotOf x) := by
  induction l with
  | nil => simp [insertDesc]
  | cons b rest ih =>
    rcases List.pairwise_cons.mp h with ⟨hb, hrest⟩
    simp only [insertDesc]
    split
    · rename_i hle
      refine List.pairwise_cons.mpr ⟨?_, h⟩
      intro y hy
      rcases List.mem_cons.mp hy with rfl | hy'
      · exact hle
      · exact (hb y hy').trans hle
    · rename_i hgt
      push_neg at hgt
      refine List.pairwise_cons.mpr ⟨?_, ih hrest⟩
      intro y hy
      rcases (mem_insertDesc a y rest).mp hy with rfl | hy'
      · exact le_of_lt hgt
      · exact hb y hy'

theorem insertDesc_filter_score (a : Article) (l : List Article) (s : Int) :
    (insertDesc a l).filter (fun x => decide (hotOf x = s)) =
      if hotOf a = s then a :: l.filter (fun x => decide (hotOf x = s))
      else l.filter (fun x => decide (hotOf x = s)) := by
  induction l with
  | nil =>
    by_cases hs : hotOf a = s <;> simp [insertDesc, hs]
  | cons b rest ih =>
    simp only [insertDesc]
    split
    · rename_i hle
      by_cases hs : hotOf a = s <;> simp [hs]
    · rename_i hgt
      push_neg at hgt
      by_cases hs : hotOf a = s
      · have hb : ¬ hotOf b = s := by
          intro hbs
          rw [hbs, ← hs] at hgt
          exact absurd hgt (lt_irrefl _)
        simp [hb, ih, hs]
      · by_cases hb : hotOf b = s <;> simp [hb, ih, hs]

theorem sort_by_hot_score_perm (l : List Article) :
    (sort_by_hot_score l).Perm l := by
  induction l with
  | nil => simp [sort_by_hot_score]
  | cons a rest ih =>
    have : sort_by_hot_score (a :: rest) = insertDesc a (sort_by_hot_score rest) := rfl
    rw [this]
    exact (insertDesc_perm a _).trans (ih.cons a)

theorem sort_by_hot_score_sorted (l : List Article) :
    (sort_by_hot_score l).Pairwise (fun x y => hotOf y ≤ hotOf x) := by
  induction l with
  | nil => simp [sort_by_hot_score]
  | cons a rest ih => exact insertDesc_sorted a _ ih

theorem sort_by_hot_score_stable (l : List Article) (s : Int) :
    (sort_by_hot_score l).filter (fun x => decide (hotOf x = s)) =
      l.filter (fun x => decide (hotOf x = s)) := by
  induction l with
  | nil => rfl
  | cons a rest ih =>
    have hstep : sort_by_hot_score (a :: rest) = insertDesc a (sort_by_hot_score rest) := rfl
    rw [hstep, insertDesc_filter_score]
    by_cases hs : hotOf a = s <;> simp [hs, ih]

theorem filter_count_eq (p : Article → Bool) (l : List Article) (a : Article) :
    (l.filter p).count a = if p a then l.count a else 0 := by
  by_cases h : p a
  · rw [if_pos h, List.count_filter h]
  · rw [if_neg h, List.count_eq_zero]
    intro hmem
    exact h ((List.mem_filter.mp hmem).2)

/-- C5: `filter_by_hot_score` returns exactly the in-order subsequence of
articles with `hot_score ≥ t` (missing `hot_score` counting 0), and
`sort_by_hot_score` is a permutation with non-increasing scores that keeps
equal-score articles in their original relative order. -/
theorem filter_sort_spec (l : List Article) (t : Int) :
    (filter_by_hot_score l t).Sublist l ∧
    (∀ x ∈ filter_by_hot_score l t, t ≤ hotOf x) ∧
    (∀ x : Article, (filter_by_hot_score l t).count x =
      if t ≤ hotOf x then l.count x else 0) ∧
    (sort_by_hot_score l).Perm l ∧
    (sort_by_hot_score l).Pairwise (fun x y => hotOf y ≤ hotOf x) ∧
    (∀ s : Int, (sort_by_hot_score l).filter (fun x => decide (hotOf x = s)) =
      l.filter (fun x => decide (hotOf x = s))) := by
  refine ⟨List.filter_sublist l, ?_, ?_, sort_by_hot_score_perm l,
    sort_by_hot_score_sorted l, sort_by_hot_score_stable l⟩
  · intro x hx
    have := (List.mem_filter.mp hx).2
    simpa using this
  · intro x
    have := filter_count_eq (fun a => decide (t ≤ hotOf a)) l x
    simpa [filter_by_hot_score] using this

/-- Witness for C5 at a concrete two-element list and threshold 60. -/
theorem filter_sort_spec_witness :
    (filter_by_hot_score [sampleArticle, sampleOther] 60).Sublist
      [sampleArticle, sampleOther] ∧
    (∀ x ∈ filter_by_hot_score [sampleArticle, sampleOther] 60, 60 ≤ hotOf x) ∧
    (∀ x : Article, (filter_by_hot_score [sampleArticle, sampleOther] 60).count x =
      if 60 ≤ hotOf x then [sampleArticle, sampleOther].count x else 0) ∧
    (sort_by_hot_score [sampleArticle, sampleOther]).Perm [sampleArticle, sampleOther] ∧
    (sort_by_hot_score [sampleArticle, sampleOther]).Pairwise
      (fun x y => hotOf y ≤ hotOf x) ∧
    (∀ s : Int, (sort_by_hot_score [sampleArticle, sampleOther]).filter
        (fun x => decide (hotOf x = s)) =
      [sampleArticle, sampleOther].filter (fun x => decide (hotOf x = s))) :=
  filter_sort_spec [sampleArticle, sampleOther] 60

/-! ## C10: processing is a frame-preserving per-article update -/

/-- C10: `process_all` preserves the list's length and order, and leaves
every non-analysis field of each article (title, link, content,
published, source, source category, language, authors, tags) unchanged. -/
theorem process_all_frame (k : Option String) (oracle : Article → ApiOutcome)
    (l : List Article) :
    (process_all k oracle l).length = l.length ∧
    ∀ i (h1 : i < (process_all k oracle l).length) (h2 : i < l.length),
      ((process_all k oracle l).get ⟨i, h1⟩).title = (l.get ⟨i, h2⟩).title ∧
      ((process_all k oracle l).get ⟨i, h1⟩).link = (l.get ⟨i, h2⟩).link ∧
      ((process_all k oracle l).get ⟨i, h1⟩).content = (l.get ⟨i, h2⟩).content ∧
      ((process_all k oracle l).get ⟨i, h1⟩).published = (l.get ⟨i, h2⟩).published ∧
      ((process_all k oracle l).get ⟨i, h1⟩).source = (l.get ⟨i, h2⟩).source ∧
      ((process_all k oracle l).get ⟨i, h1⟩).source_category =
        (l.get ⟨i, h2⟩).source_category ∧
      ((process_all k oracle l).get ⟨i, h1⟩).language = (l.get ⟨i, h2⟩).language ∧
      ((process_all k oracle l).get ⟨i, h1⟩).authors = (l.get ⟨i, h2⟩).authors ∧
      ((process_all k oracle l).get ⟨i, h1⟩).tags = (l.get ⟨i, h2⟩).tags := by
  refine ⟨by rw [process_all_eq_map]; simp, ?_⟩
  intro i h1 h2
  rw [List.get_of_eq (process_all_eq_map k oracle l)]
  simp [applyAnalysis]

/-- Witness for C10 with a configured key, a failing oracle and one
concrete article. -/
theorem process_all_frame_witness :
    (process_all (some "key") oracleFail [sampleArticle]).length =
      [sampleArticle].length ∧
    ∀ i (h1 : i < (process_all (some "key") oracleFail [sampleArticle]).length)
      (h2 : i < [sampleArticle].length),
      ((process_all (some "key") oracleFail [sampleArticle]).get ⟨i, h1⟩).title =
        ([sampleArticle].get ⟨i, h2⟩).title ∧
      ((process_all (some "key") oracleFail [sampleArticle]).get ⟨i, h1⟩).link =
        ([sampleArticle].get ⟨i, h2⟩).link ∧
      ((process_all (some "key") oracleFail [sampleArticle]).get ⟨i, h1⟩).content =
        ([sampleArticle].get ⟨i, h2⟩).content ∧
      ((process_all (some "key") oracleFail [sampleArticle]).get ⟨i, h1⟩).published =
        ([sampleArticle].get ⟨i, h2⟩).published ∧
      ((process_all (some "key") oracleFail [sampleArticle]).get ⟨i, h1⟩).source =
        ([sampleArticle].get ⟨i, h2⟩).source ∧
      ((process_all (some "key") oracleFail [sampleArticle]).get ⟨i, h1⟩).source_category =
        ([sampleArticle].get ⟨i, h2⟩).source_category ∧
      ((process_all (some "key") oracleFail [sampleArticle]).get ⟨i, h1⟩).language =
        ([sampleArticle].get ⟨i, h2⟩).language ∧
      ((process_all (some "key") oracleFail [sampleArticle]).get ⟨i, h1⟩).authors =
        ([sampleArticle].get ⟨i, h2⟩).authors ∧
      ((process_all (some "key") oracleFail [sampleArticle]).get ⟨i, h1⟩).tags =
        ([sampleArticle].get ⟨i, h2⟩).tags :=
  process_all_frame (some "key") oracleFail [sampleArticle]

/-! ## C8: per-source failure isolation -/

theorem foldl_append_eq_flatten {α β : Type} (f : α → List β)
    (l : List α) (init : List β) :
    l.foldl (fun acc s => acc ++ f s) init = init ++ (l.map f).flatten := by
  induction l generalizing init with
  | nil => simp
  | cons a rest ih =>
    simp only [List.foldl_cons, List.map_cons, List.flatten_cons, ih, List.append_assoc]

/-- C8: `fetch_all` is the in-order concatenation of the per-source
`fetch_feed` results, and a source whose fetch raises a transport error
contributes the empty list without aborting the rest. -/
theorem fetch_all_spec (oracle : Source → FetchOutcome) (sources : List Source) :
    fetch_all oracle sources = (sources.map (fetch_feed oracle)).flatten ∧
    ∀ s : Source, oracle s = .transportError → fetch_feed oracle s = [] := by
  constructor
  · rw [fetch_all, foldl_append_eq_flatten]
    simp
  · intro s hs
    simp [fetch_feed, hs]

/-- A concrete source for the C8 witness. -/
def sampleSource : Source :=
  { name := "36氪", url := "https://36kr.com/feed", category := "科技媒体"
    language := "zh", enabled := true }

/-- A second concrete source whose fetch will fail. -/
def sampleBadSource : Source := { sampleSource with name := "虎嗅网", url := "bad" }

/-- A concrete fetch oracle: the bad source fails at transport, every
other source yields one parsed entry and one unparseable entry. -/
def sampleFetchOracle : Source → FetchOutcome := fun s =>
  if s = sampleBadSource then .transportError
  else .ok [some sampleArticle, none]

/-- Witness for C8: two sources, one failing. -/
theorem fetch_all_spec_witness :
    fetch_all sampleFetchOracle [sampleSource, sampleBadSource] =
      ([sampleSource, sampleBadSource].map (fetch_feed sampleFetchOracle)).flatten ∧
    ∀ s : Source, sampleFetchOracle s = .transportError →
      fetch_feed sampleFetchOracle s = [] :=
  fetch_all_spec sampleFetchOracle [sampleSource, sampleBadSource]

/-! ## Report bucket lemmas -/

theorem any_key_iff (bs : List (String × List Article)) (c : String) :
    (bs.any (fun p => decide (p.1 = c)) = true) ↔ c ∈ bs.map Prod.fst := by
  rw [List.any_eq_true]
  constructor
  · rintro ⟨p, hp, hpe⟩
    simp only [decide_eq_true_eq] at hpe
    exact List.mem_map.mpr ⟨p, hp, hpe⟩
  · intro h
    rcases List.mem_map.mp h with ⟨p, hp, he⟩
    exact ⟨p, hp, by simp [he]⟩

theorem addToBuckets_keys (bs : List (String × List Article)) (a : Article) :
    (addToBuckets bs a).map Prod.fst =
      if effCat a ∈ bs.map Prod.fst then bs.map Prod.fst
      else bs.map Prod.fst ++ [effCat a] := by
  unfold addToBuckets
  by_cases h : effCat a ∈ bs.map Prod.fst
  · rw [if_pos ((any_key_iff bs (effCat a)).mpr h), if_pos h, List.map_map]
    apply List.map_congr_left
    intro p _
    by_cases hpc : p.1 = effCat a <;> simp [Function.comp, hpc]
  · rw [if_neg (fun hh => h ((any_key_iff bs (effCat a)).mp hh)), if_neg h]
    simp

theorem addToBuckets_nodup (bs : List (String × List Article)) (a : Article)
    (hnd : (bs.map Prod.fst).Nodup) :
    ((addToBuckets bs a).map Prod.fst).Nodup := by
  rw [addToBuckets_keys]
  split
  · exact hnd
  · rename_i h
    rw [List.nodup_append]
    refine ⟨hnd, List.nodup_singleton _, ?_⟩
    intro x hx hxc
    rw [List.mem_singleton] at hxc
    exact h (hxc ▸ hx)

theorem addToBuckets_content (bs : List (String × List Article)) (a : Article)
    (pref : List Article)
    (hcontent : ∀ p ∈ bs, p.2 = pref.filter (fun x => decide (effCat x = p.1)))
    (hcover : ∀ x ∈ pref, effCat x ∈ bs.map Prod.fst) :
    ∀ p ∈ addToBuckets bs a,
      p.2 = (pref ++ [a]).filter (fun x => decide (effCat x = p.1)) := by
  intro p hp
  unfold addToBuckets at hp
  split at hp
  · rcases List.mem_map.mp hp with ⟨q, hq, rfl⟩
    by_cases hqc : q.1 = effCat a
    · simp only [if_pos hqc]
      rw [List.filter_append, ← hcontent q hq]
      simp [hqc]
    · simp only [if_neg hqc]
      have hne : ¬ effCat a = q.1 := fun he => hqc he.symm
      rw [List.filter_append, ← hcontent q hq]
      simp [hne]
  · rename_i hany
    have hnotin : effCat a ∉ bs.map Prod.fst :=
      fun hh => hany ((any_key_iff bs (effCat a)).mpr hh)
    rcases List.mem_append.mp hp with hpin | hpnew
    · have hne : ¬ effCat a = p.1 := by
        intro he
        exact hnotin (he ▸ List.mem_map.mpr ⟨p, hpin, rfl⟩)
      rw [List.filter_append, ← hcontent p hpin]
      simp [hne]
    · rcases List.mem_singleton.mp hpnew with rfl
      have hpref : pref.filter (fun x => decide (effCat x = effCat a)) = [] := by
        rw [List.filter_eq_nil_iff]
        intro x hx
        simp only [decide_eq_true_eq]
        intro he
        exact hnotin (he ▸ hcover x hx)
      rw [List.filter_append, hpref]
      simp

theorem addToBuckets_cover (bs : List (String × List Article)) (a : Article)
    (pref : List Article)
    (hcover : ∀ x ∈ pref, effCat x ∈ bs.map Prod.fst) :
    ∀ x ∈ pref ++ [a], effCat x ∈ (addToBuckets bs a).map Prod.fst := by
  intro x hx
  rw [addToBuckets_keys]
  rcases List.mem_append.mp hx with hxp | hxa
  · split
    · exact hcover x hxp
    · exact List.mem_append_left _ (hcover x hxp)
  · rcases List.mem_singleton.mp hxa with rfl
    split
    · assumption
    · simp

theorem foldl_addToBuckets_inv (rest : List Article)
    (bs : List (String × List Article)) (pref : List Article)
    (hnd : (bs.map Prod.fst).Nodup)
    (hcontent : ∀ p ∈ bs, p.2 = pref.filter (fun x => decide (effCat x = p.1)))
    (hcover : ∀ x ∈ pref, effCat x ∈ bs.map Prod.fst) :
    ((rest.foldl addToBuckets bs).map Prod.fst).Nodup ∧
    (∃ extra, (rest.foldl addToBuckets bs).map Prod.fst = bs.map Prod.fst ++ extra) ∧
    (∀ k ∈ (rest.foldl addToBuckets bs).map Prod.fst,
      k ∈ bs.map Prod.fst ∨ k ∈ rest.map effCat) ∧
    (∀ p ∈ rest.foldl addToBuckets bs,
      p.2 = (pref ++ rest).filter (fun x => decide (effCat x = p.1))) ∧
    (∀ x ∈ pref ++ rest, effCat x ∈ (rest.foldl addToBuckets bs).map Prod.fst) := by
  induction rest generalizing bs pref with
  | nil =>
    refine ⟨hnd, ⟨[], by simp⟩, fun k hk => Or.inl hk, by simpa using hcontent,
      by simpa using hcover⟩
  | cons a rest' ih =>
    have hstep := ih (addToBuckets bs a) (pref ++ [a])
      (addToBuckets_nodup bs a hnd)
      (addToBuckets_content bs a pref hcontent hcover)
      (addToBuckets_cover bs a pref hcover)
    rw [List.foldl_cons]
    rcases hstep with ⟨h1, ⟨extra, h2⟩, h3, h4, h5⟩
    refine ⟨h1, ?_, ?_, ?_, ?_⟩
    · rw [addToBuckets_keys] at h2
      split at h2
      · exact ⟨extra, h2⟩
      · exact ⟨effCat a :: extra, by rw [h2]; simp⟩
    · intro k hk
      rcases h3 k hk with hk' | hk'
      · rw [addToBuckets_keys] at hk'
        split at hk'
        · exact Or.inl hk'
        · rcases List.mem_append.mp hk' with h | h
          · exact Or.inl h
          · rcases List.mem_singleton.mp h with rfl
            exact Or.inr (by simp)
      · exact Or.inr (List.mem_cons_of_mem _ (by simpa using hk'))
    · intro p hp
      have := h4 p hp
      rwa [List.append_assoc, List.singleton_append] at this
    · intro x hx
      apply h5
      rw [List.append_assoc, List.singleton_append]
      exact hx

theorem categoryOrder_nodup : categoryOrder.Nodup := by decide

theorem rawBuckets_keys_init :
    ((categoryOrder.map (fun c => (c, ([] : List Article)))).map Prod.fst) =
      categoryOrder := rfl

/-- The four structural facts about the grouping dict of
`generate_report` before the per-bucket sort. -/
theorem rawBuckets_spec (articles : List Article) :
    ((rawBuckets articles).map Prod.fst).Nodup ∧
    (∃ extra, (rawBuckets articles).map Prod.fst = categoryOrder ++ extra) ∧
    (∀ k ∈ (rawBuckets articles).map Prod.fst,
      k ∈ categoryOrder ∨ k ∈ articles.map effCat) ∧
    (∀ p ∈ rawBuckets articles,
      p.2 = articles.filter (fun x => decide (effCat x = p.1))) ∧
    (∀ x ∈ articles, effCat x ∈ (rawBuckets articles).map Prod.fst) := by
  have h := foldl_addToBuckets_inv articles
    (categoryOrder.map (fun c => (c, ([] : List Article)))) []
    (by rw [rawBuckets_keys_init]; exact categoryOrder_nodup)
    (by intro p hp
        rcases List.mem_map.mp hp with ⟨c, _, rfl⟩
        simp)
    (by intro x hx; simp at hx)
  rcases h with ⟨h1, ⟨extra, h2⟩, h3, h4, h5⟩
  rw [rawBuckets_keys_init] at h2 h3
  exact ⟨h1, ⟨extra, h2⟩, h3, by simpa using h4, by simpa using h5⟩

theorem sum_map_add_nat {α : Type} (l : List α) (f g : α → Nat) :
    (l.map (fun x => f x + g x)).sum = (l.map f).sum + (l.map g).sum := by
  induction l with
  | nil => rfl
  | cons a rest ih =>
    simp only [List.map_cons, List.sum_cons, ih]
    omega

theorem sum_indicator (ks : List String) (c : String) :
    (ks.map (fun k => if c = k then 1 else 0)).sum = ks.count c := by
  induction ks with
  | nil => rfl
  | cons k rest ih =>
    rw [List.map_cons, List.sum_cons, List.count_cons, ih]
    by_cases h : c = k
    · simp [h, Nat.add_comm]
    · have hk : (k == c) = false := beq_false_of_ne (fun he => h he.symm)
      simp [h, hk]

theorem sum_filter_lengths (ks : List String) (hnd : ks.Nodup) :
    ∀ l : List Article, (∀ x ∈ l, effCat x ∈ ks) →
      (ks.map (fun k => (l.filter (fun x => decide (effCat x = k))).length)).sum =
        l.length := by
  intro l
  induction l with
  | nil => simp
  | cons a rest ih =>
    intro hcov
    have hrest := ih (fun x hx => hcov x (List.mem_cons_of_mem _ hx))
    have hsplit : ∀ k : String,
        ((a :: rest).filter (fun x => decide (effCat x = k))).length =
          (if effCat a = k then 1 else 0) +
            (rest.filter (fun x => decide (effCat x = k))).length := by
      intro k
      by_cases h : effCat a = k <;> simp [List.filter_cons, h] <;> omega
    have h1 : ks.map (fun k =>
          ((a :: rest).filter (fun x => decide (effCat x = k))).length) =
        ks.map (fun k => (if effCat a = k then 1 else 0) +
          (rest.filter (fun x => decide (effCat x = k))).length) :=
      List.map_congr_left (fun k _ => hsplit k)
    rw [h1, sum_map_add_nat, sum_indicator, hrest,
      List.count_eq_one_of_mem hnd (hcov a (List.mem_cons_self a rest))]
    simp [Nat.add_comm]

theorem reportBuckets_keys (articles : List Article) :
    (reportBuckets articles).map Prod.fst = (rawBuckets articles).map Prod.fst := by
  unfold reportBuckets
  rw [List.map_map]
  exact List.map_congr_left (fun p _ => rfl)

/-! ## C7: category partition of the report -/

/-- C7: the report's bucket list starts with the five canonical
categories in their fixed order with unrecognized categories appended;
its keys are pairwise distinct; every article's effective category
(its own, or the fallback when absent) is a key; each bucket holds
exactly the articles of its category, stably sorted by descending
`hot_score` (hence non-increasing); and the bucket sizes sum to the
article count, so each article lies in exactly one bucket. -/
theorem report_buckets_spec (articles : List Article) :
    (∃ extra, (reportBuckets articles).map Prod.fst = categoryOrder ++ extra ∧
      ∀ k ∈ extra, k ∉ categoryOrder ∧ k ∈ articles.map effCat) ∧
    ((reportBuckets articles).map Prod.fst).Nodup ∧
    (∀ x ∈ articles, effCat x ∈ (reportBuckets articles).map Prod.fst) ∧
    (∀ p ∈ reportBuckets articles,
      p.2 = sort_by_hot_score (articles.filter (fun x => decide (effCat x = p.1)))) ∧
    (∀ p ∈ reportBuckets articles, p.2.Pairwise (fun x y => hotOf y ≤ hotOf x)) ∧
    ((reportBuckets articles).map (fun p => p.2.length)).sum = articles.length := by
  rcases rawBuckets_spec articles with ⟨h1, ⟨extra, h2⟩, h3, h4, h5⟩
  have hcontent : ∀ p ∈ reportBuckets articles,
      p.2 = sort_by_hot_score (articles.filter (fun x => decide (effCat x = p.1))) := by
    intro p hp
    rcases List.mem_map.mp hp with ⟨q, hq, rfl⟩
    simp only
    rw [h4 q hq]
  refine ⟨⟨extra, ?_, ?_⟩, ?_, ?_, hcontent, ?_, ?_⟩
  · rw [reportBuckets_keys, h2]
  · intro k hk
    constructor
    · rw [h2, List.nodup_append] at h1
      exact fun hkc => h1.2.2 hkc hk
    · have hkin : k ∈ (rawBuckets articles).map Prod.fst := by
        rw [h2]
        exact List.mem_append_right _ hk
      rcases h3 k hkin with hkc | hkc
      · exfalso
        rw [h2, List.nodup_append] at h1
        exact h1.2.2 hkc hk
      · exact hkc
  · rw [reportBuckets_keys]
    exact h1
  · intro x hx
    rw [reportBuckets_keys]
    exact h5 x hx
  · intro p hp
    rw [hcontent p hp]
    exact sort_by_hot_score_sorted _
  · have hlen : (reportBuckets articles).map (fun p => p.2.length) =
        ((rawBuckets articles).map Prod.fst).map
          (fun k => (articles.filter (fun x => decide (effCat x = k))).length) := by
      unfold reportBuckets
      rw [List.map_map, List.map_map]
      apply List.map_congr_left
      intro p hp
      simp only [Function.comp]
      rw [(sort_by_hot_score_perm p.2).length_eq, h4 p hp]
    rw [hlen]
    exact sum_filter_lengths _ h1 articles h5

/-- Witness for C7 at a concrete list with one recognized, one missing
and one unrecognized category. -/
theorem report_buckets_spec_witness :
    (∃ extra,
      (reportBuckets [sampleArticle, { sampleOther with category := some "其他" },
        { sampleDup with category := some "产品发布" }]).map Prod.fst =
        categoryOrder ++ extra ∧
      ∀ k ∈ extra, k ∉ categoryOrder ∧
        k ∈ [sampleArticle, { sampleOther with category := some "其他" },
          { sampleDup with category := some "产品发布" }].map effCat) ∧
    ((reportBuckets [sampleArticle, { sampleOther with category := some "其他" },
        { sampleDup with category := some "产品发布" }]).map Prod.fst).Nodup ∧
    (∀ x ∈ [sampleArticle, { sampleOther with category := some "其他" },
        { sampleDup with category := some "产品发布" }],
      effCat x ∈ (reportBuckets [sampleArticle,
        { sampleOther with category := some "其他" },
        { sampleDup with category := some "产品发布" }]).map Prod.fst) ∧
    (∀ p ∈ reportBuckets [sampleArticle, { sampleOther with category := some "其他" },
        { sampleDup with category := some "产品发布" }],
      p.2 = sort_by_hot_score ([sampleArticle,
        { sampleOther with category := some "其他" },
        { sampleDup with category := some "产品发布" }].filter
          (fun x => decide (effCat x = p.1)))) ∧
    (∀ p ∈ reportBuckets [sampleArticle, { sampleOther with category := some "其他" },
        { sampleDup with category := some "产品发布" }],
      p.2.Pairwise (fun x y => hotOf y ≤ hotOf x)) ∧
    ((reportBuckets [sampleArticle, { sampleOther with category := some "其他" },
        { sampleDup with category := some "产品发布" }]).map
          (fun p => p.2.length)).sum =
      [sampleArticle, { sampleOther with category := some "其他" },
        { sampleDup with category := some "产品发布" }].length :=
  report_buckets_spec [sampleArticle, { sampleOther with category := some "其他" },
    { sampleDup with category := some "产品发布" }]

/-! ## C6: report statistics -/

theorem pySet_go (l : List String) : ∀ acc : List String, acc.Nodup →
    (l.foldl (fun acc x => if x ∈ acc then acc else acc ++ [x]) acc).Nodup ∧
    ∀ x, x ∈ l.foldl (fun acc x => if x ∈ acc then acc else acc ++ [x]) acc ↔
      (x ∈ acc ∨ x ∈ l) := by
  induction l with
  | nil =>
    intro acc h
    exact ⟨h, by simp⟩
  | cons a rest ih =>
    intro acc hacc
    simp only [List.foldl_cons]
    by_cases h : a ∈ acc
    · rw [if_pos h]
      rcases ih acc hacc with ⟨h1, h2⟩
      refine ⟨h1, fun x => ?_⟩
      rw [h2]
      constructor
      · rintro (hx | hx)
        · exact Or.inl hx
        · exact Or.inr (List.mem_cons_of_mem _ hx)
      · rintro (hx | hx)
        · exact Or.inl hx
        · rcases List.mem_cons.mp hx with rfl | hx'
          · exact Or.inl h
          · exact Or.inr hx'
    · rw [if_neg h]
      have hnd : (acc ++ [a]).Nodup := by
        rw [List.nodup_append]
        refine ⟨hacc, List.nodup_singleton _, ?_⟩
        intro x hx hxa
        rw [List.mem_singleton] at hxa
        exact h (hxa ▸ hx)
      rcases ih (acc ++ [a]) hnd with ⟨h1, h2⟩
      refine ⟨h1, fun x => ?_⟩
      rw [h2]
      simp only [List.mem_append, List.mem_singleton, List.mem_cons]
      tauto

theorem pySet_spec (l : List String) :
    (pySet l).Nodup ∧ ∀ x, x ∈ pySet l ↔ x ∈ l := by
  rcases pySet_go l [] List.nodup_nil with ⟨h1, h2⟩
  refine ⟨h1, fun x => ?_⟩
  have := h2 x
  simpa using this

theorem pySet_length_card (l : List String) :
    (pySet l).length = l.toFinset.card := by
  rcases pySet_spec l with ⟨h1, h2⟩
  rw [← List.toFinset_card_of_nodup h1]
  congr 1
  ext x
  simp only [List.mem_toFinset]
  exact h2 x

theorem filter_fst_length (bs : List (String × List Article)) (q : String → Bool) :
    (bs.filter (fun p => q p.1)).length = ((bs.map Prod.fst).filter q).length := by
  induction bs with
  | nil => rfl
  | cons p rest ih =>
    by_cases h : q p.1 <;> simp [List.filter_cons, h, ih]

theorem sort_eq_nil_iff (l : List Article) : sort_by_hot_score l = [] ↔ l = [] := by
  constructor
  · intro h
    have := sort_by_hot_score_perm l
    rw [h] at this
    exact (List.Perm.nil_eq this).symm
  · rintro rfl
    rfl

/-- The number of non-empty buckets equals the number of distinct
effective categories among the articles. -/
theorem total_categories_eq (articles : List Article) :
    ((reportBuckets articles).filter (fun p => !p.2.isEmpty)).length =
      (articles.map effCat).toFinset.card := by
  rcases rawBuckets_spec articles with ⟨h1, _, _, h4, h5⟩
  have hcover : ∀ k ∈ articles.map effCat, k ∈ (rawBuckets articles).map Prod.fst := by
    intro k hk
    rcases List.mem_map.mp hk with ⟨x, hx, rfl⟩
    exact h5 x hx
  have hpred : ∀ p ∈ reportBuckets articles,
      (!p.2.isEmpty) = decide (p.1 ∈ articles.map effCat) := by
    intro p hp
    rcases List.mem_map.mp hp with ⟨q, hq, rfl⟩
    simp only [List.isEmpty_iff]
    have hcontent := h4 q hq
    by_cases hm : q.1 ∈ articles.map effCat
    · rcases List.mem_map.mp hm with ⟨x, hx, hxc⟩
      have hne : sort_by_hot_score q.2 ≠ [] := by
        rw [Ne, sort_eq_nil_iff, hcontent, List.filter_eq_nil_iff]
        intro hall
        exact absurd hxc (by simpa using hall x hx)
      simp [hne, hm]
    · have hnil : sort_by_hot_score q.2 = [] := by
        rw [sort_eq_nil_iff, hcontent, List.filter_eq_nil_iff]
        intro x hx
        simp only [decide_eq_true_eq]
        intro he
        exact hm (he ▸ List.mem_map.mpr ⟨x, hx, rfl⟩)
      simp [hnil, hm]
  rw [List.filter_congr hpred]
  have : (reportBuckets articles).filter
      (fun p => decide (p.1 ∈ articles.map effCat)) =
      (reportBuckets articles).filter
        (fun p => (fun k => decide (k ∈ articles.map effCat)) p.1) := rfl
  rw [this, filter_fst_length (reportBuckets articles)
    (fun k => decide (k ∈ articles.map effCat)), reportBuckets_keys]
  have hndf : (((rawBuckets articles).map Prod.fst).filter
      (fun k => decide (k ∈ articles.map effCat))).Nodup := h1.filter _
  rw [← List.toFinset_card_of_nodup hndf]
  congr 1
  ext k
  simp only [List.mem_toFinset, List.mem_filter, decide_eq_true_eq]
  constructor
  · rintro ⟨_, hk⟩
    exact hk
  · intro hk
    exact ⟨hcover k hk, hk⟩

/-- C6: the report statistics — total equals the list length; the average
is the arithmetic mean of the `hot_score`s (0 on the empty list); the
source count is the number of distinct source names; and the category
count is the number of buckets holding at least one article, which equals
the number of distinct effective categories. -/
theorem generate_stats_spec (articles : List Article) :
    (generateStats articles).total_articles = articles.length ∧
    (articles = [] → (generateStats articles).avg_hot_score = 0) ∧
    (articles ≠ [] → (generateStats articles).avg_hot_score * (articles.length : ℚ) =
      (((articles.map hotOf).sum : ℤ) : ℚ)) ∧
    (generateStats articles).total_sources =
      (articles.map (fun a => a.source)).toFinset.card ∧
    (generateStats articles).total_categories =
      ((reportBuckets articles).filter (fun p => !p.2.isEmpty)).length ∧
    (generateStats articles).total_categories =
      (articles.map effCat).toFinset.card := by
  refine ⟨rfl, ?_, ?_, ?_, rfl, total_categories_eq articles⟩
  · rintro rfl
    rfl
  · intro hne
    have hlen : (articles.length : ℚ) ≠ 0 := by
      simp only [Ne, Nat.cast_eq_zero, List.length_eq_zero]
      exact hne
    simp only [generateStats]
    rw [if_neg (by simp only [List.isEmpty_iff]; exact hne)]
    rw [div_mul_cancel₀ _ hlen]
  · exact pySet_length_card _

/-- Witness for C6 at a concrete two-article list. -/
theorem generate_stats_spec_witness :
    (generateStats [sampleArticle, sampleOther]).total_articles =
      [sampleArticle, sampleOther].length ∧
    ([sampleArticle, sampleOther] = ([] : List Article) →
      (generateStats [sampleArticle, sampleOther]).avg_hot_score = 0) ∧
    ([sampleArticle, sampleOther] ≠ ([] : List Article) →
      (generateStats [sampleArticle, sampleOther]).avg_hot_score *
        (([sampleArticle, sampleOther].length : Nat) : ℚ) =
      ((([sampleArticle, sampleOther].map hotOf).sum : ℤ) : ℚ)) ∧
    (generateStats [sampleArticle, sampleOther]).total_sources =
      ([sampleArticle, sampleOther].map (fun a => a.source)).toFinset.card ∧
    (generateStats [sampleArticle, sampleOther]).total_categories =
      ((reportBuckets [sampleArticle, sampleOther]).filter
        (fun p => !p.2.isEmpty)).length ∧
    (generateStats [sampleArticle, sampleOther]).total_categories =
      ([sampleArticle, sampleOther].map effCat).toFinset.card :=
  generate_stats_spec [sampleArticle, sampleOther]

/-! ## C9: markdown fence stripping -/

theorem dropWhile_ws_all_append (w r : List Char)
    (hw : ∀ c ∈ w, isPyWS c = true) :
    List.dropWhile isPyWS (w ++ r) = List.dropWhile isPyWS r := by
  induction w with
  | nil => rfl
  | cons x xs ih =>
    rw [List.cons_append,
      List.dropWhile_cons_of_pos (hw x (List.mem_cons_self x xs))]
    exact ih (fun c hc => hw c (List.mem_cons_of_mem _ hc))

theorem pyStrip_sandwich (w₁ w₂ core : List Char)
    (hw₁ : ∀ c ∈ w₁, isPyWS c = true) (hw₂ : ∀ c ∈ w₂, isPyWS c = true)
    (hne : core ≠ [])
    (hhead : ∀ c, core.head? = some c → isPyWS c = false)
    (hlast : ∀ c, core.getLast? = some c → isPyWS c = false) :
    pyStrip (w₁ ++ (core ++ w₂)) = core := by
  rcases core with _ | ⟨c, rest⟩
  · exact absurd rfl hne
  have hc : isPyWS c = false := hhead c rfl
  unfold pyStrip
  rw [dropWhile_ws_all_append w₁ _ hw₁, List.cons_append,
    List.dropWhile_cons_of_neg (by simp [hc]), ← List.cons_append,
    List.reverse_append,
    dropWhile_ws_all_append w₂.reverse _
      (fun x hx => hw₂ x (List.mem_reverse.mp hx))]
  have hrev : ∃ d t, (c :: rest).reverse = d :: t := by
    rcases hr : (c :: rest).reverse with _ | ⟨d, t⟩
    · exact absurd (List.reverse_eq_nil_iff.mp hr) (List.cons_ne_nil c rest)
    · exact ⟨d, t, rfl⟩
  rcases hrev with ⟨d, t, hdt⟩
  have hd : isPyWS d = false :=
    hlast d (by rw [← List.head?_reverse, hdt]; rfl)
  rw [hdt, List.dropWhile_cons_of_neg (by simp [hd]), ← hdt,
    List.reverse_reverse]

theorem startsWithChars_append_self (p l : List Char) :
    startsWithChars p (p ++ l) = true := by
  induction p with
  | nil => rfl
  | cons x xs ih => simp [startsWithChars, ih]

theorem startsWithChars_shift (p r l : List Char) :
    startsWithChars (p ++ r) (p ++ l) = startsWithChars r l := by
  induction p with
  | nil => rfl
  | cons x xs ih => simp [startsWithChars, ih]

theorem startsWithChars_head_ne (p0 c : Char) (ps r : List Char) (h : p0 ≠ c) :
    startsWithChars (p0 :: ps) (c :: r) = false := by
  simp [startsWithChars, h]

theorem getLast?_append_fence3 (y : List Char) :
    (y ++ fence3).getLast? = some btick := by
  rw [← List.head?_reverse, List.reverse_append]
  rfl

theorem endsWith_fence3_append (y : List Char) :
    endsWithChars fence3 (y ++ fence3) = true := by
  unfold endsWithChars
  rw [List.reverse_append]
  exact startsWithChars_append_self _ _

theorem endsWith_fence3_false (l : List Char) (hne : l ≠ [])
    (h : ∀ c, l.getLast? = some c → c ≠ btick) :
    endsWithChars fence3 l = false := by
  unfold endsWithChars
  rcases hr : l.reverse with _ | ⟨d, t⟩
  · exact absurd (List.reverse_eq_nil_iff.mp hr) hne
  have hd : l.getLast? = some d := by rw [← List.head?_reverse, hr]; rfl
  have hdne : d ≠ btick := h d hd
  exact startsWithChars_head_ne btick d [btick, btick] t (fun he => hdne he.symm)

theorem ws_ne_btick (c : Char) (h : isPyWS c = true) : c ≠ btick := by
  intro he
  rw [he] at h
  exact absurd h (by decide)

theorem ws_ne_j (c : Char) (h : isPyWS c = true) : c ≠ 'j' := by
  intro he
  rw [he] at h
  exact absurd h (by decide)

/-- C9: the reply cleaning of `_analyze_article` hands `json.loads` the
same text `j` whether the model returned the JSON object text `j` bare or
wrapped in a markdown code fence (```` ```json ```` or ```` ``` ````),
with arbitrary whitespace around the fenced block and between the fence
markers and `j`; hence a fenced reply is decoded like a bare one instead
of falling into the default-analysis branch. -/
theorem fence_stripping_spec (j w₁ w₂ wi₁ wi₂ : List Char)
    (hw₁ : ∀ c ∈ w₁, isPyWS c = true) (hw₂ : ∀ c ∈ w₂, isPyWS c = true)
    (hwi₁ : ∀ c ∈ wi₁, isPyWS c = true) (hwi₂ : ∀ c ∈ wi₂, isPyWS c = true)
    (hjhead : j.head? = some '\x7b') (hjlast : j.getLast? = some '\x7d') :
    cleanResultText
      (w₁ ++ (fenceJson ++ (wi₁ ++ (j ++ (wi₂ ++ (fence3 ++ w₂)))))) = j ∧
    cleanResultText
      (w₁ ++ (fence3 ++ (wi₁ ++ (j ++ (wi₂ ++ (fence3 ++ w₂)))))) = j ∧
    cleanResultText j = j := by
  rcases j with _ | ⟨c0, jt⟩
  · simp at hjhead
  have hc0 : c0 = '\x7b' := by simpa using hjhead
  subst hc0
  have hheadj : ∀ c, (('\x7b' :: jt) : List Char).head? = some c →
      isPyWS c = false := by
    intro c hc
    have h0 : ('\x7b' : Char) = c := Option.some.inj hc
    rw [← h0]
    decide
  have hlastj : ∀ c, (('\x7b' :: jt) : List Char).getLast? = some c →
      isPyWS c = false := by
    intro c hc
    have h0 : ('\x7d' : Char) = c := Option.some.inj (hjlast.symm.trans hc)
    rw [← h0]
    decide
  have hxform : ∃ cx tx, wi₁ ++ (('\x7b' :: jt) ++ (wi₂ ++ fence3)) = cx :: tx ∧
      cx ≠ btick ∧ cx ≠ 'j' := by
    rcases wi₁ with _ | ⟨c1, w1t⟩
    · exact ⟨'\x7b', jt ++ (wi₂ ++ fence3), by simp, by decide, by decide⟩
    · exact ⟨c1, w1t ++ (('\x7b' :: jt) ++ (wi₂ ++ fence3)), by simp,
        ws_ne_btick c1 (hwi₁ c1 (List.mem_cons_self _ _)),
        ws_ne_j c1 (hwi₁ c1 (List.mem_cons_self _ _))⟩
  rcases hxform with ⟨cx, tx, hxeq, hxb, hxj⟩
  have hstart3x : startsWithChars fence3
      (wi₁ ++ (('\x7b' :: jt) ++ (wi₂ ++ fence3))) = false := by
    rw [hxeq]
    exact startsWithChars_head_ne btick cx [btick, btick] tx
      (fun he => hxb he.symm)
  have hxassoc : wi₁ ++ (('\x7b' :: jt) ++ (wi₂ ++ fence3)) =
      (wi₁ ++ (('\x7b' :: jt) ++ wi₂)) ++ fence3 := by
    simp [List.append_assoc]
  have hlen3 : ((wi₁ ++ (('\x7b' :: jt) ++ wi₂)) ++ fence3).length - 3 =
      (wi₁ ++ (('\x7b' :: jt) ++ wi₂)).length := by
    simp only [List.length_append, fence3, List.length_cons, List.length_nil]
    omega
  have hstripy : pyStrip (wi₁ ++ (('\x7b' :: jt) ++ wi₂)) = '\x7b' :: jt :=
    pyStrip_sandwich wi₁ wi₂ _ hwi₁ hwi₂ (List.cons_ne_nil _ _) hheadj hlastj
  have hends : endsWithChars fence3
      (wi₁ ++ (('\x7b' :: jt) ++ (wi₂ ++ fence3))) = true := by
    rw [hxassoc]
    exact endsWith_fence3_append _
  have htail : pyStrip
      (if endsWithChars fence3 (wi₁ ++ (('\x7b' :: jt) ++ (wi₂ ++ fence3)))
       then (wi₁ ++ (('\x7b' :: jt) ++ (wi₂ ++ fence3))).take
         ((wi₁ ++ (('\x7b' :: jt) ++ (wi₂ ++ fence3))).length - 3)
       else wi₁ ++ (('\x7b' :: jt) ++ (wi₂ ++ fence3))) = '\x7b' :: jt := by
    rw [if_pos hends, hxassoc, hlen3, List.take_left]
    exact hstripy
  refine ⟨?_, ?_, ?_⟩
  · have hshape : w₁ ++ (fenceJson ++ (wi₁ ++ (('\x7b' :: jt) ++
        (wi₂ ++ (fence3 ++ w₂))))) =
        w₁ ++ ((fenceJson ++ (wi₁ ++ (('\x7b' :: jt) ++ (wi₂ ++ fence3)))) ++ w₂) := by
      simp [List.append_assoc]
    have hcore1last : ∀ c,
        (fenceJson ++ (wi₁ ++ (('\x7b' :: jt) ++ (wi₂ ++ fence3)))).getLast? =
          some c → isPyWS c = false := by
      intro c hc
      rw [show fenceJson ++ (wi₁ ++ (('\x7b' :: jt) ++ (wi₂ ++ fence3))) =
          (fenceJson ++ (wi₁ ++ (('\x7b' :: jt) ++ wi₂))) ++ fence3 from by
            simp [List.append_assoc],
        getLast?_append_fence3] at hc
      have h0 : btick = c := Option.some.inj hc
      rw [← h0]
      decide
    have hstrip1 : pyStrip (w₁ ++
        ((fenceJson ++ (wi₁ ++ (('\x7b' :: jt) ++ (wi₂ ++ fence3)))) ++ w₂)) =
        fenceJson ++ (wi₁ ++ (('\x7b' :: jt) ++ (wi₂ ++ fence3))) :=
      pyStrip_sandwich w₁ w₂ _ hw₁ hw₂ (by simp [fenceJson])
        (fun c hc => by
          have h0 : btick = c := Option.some.inj hc
          rw [← h0]
          decide)
        hcore1last
    have hdrop7 : (fenceJson ++ (wi₁ ++ (('\x7b' :: jt) ++ (wi₂ ++ fence3)))).drop 7 =
        wi₁ ++ (('\x7b' :: jt) ++ (wi₂ ++ fence3)) := rfl
    have hn3 : ¬ (startsWithChars fence3
        (wi₁ ++ (('\x7b' :: jt) ++ (wi₂ ++ fence3))) = true) := by
      rw [hstart3x]
      exact Bool.false_ne_true
    simp only [cleanResultText]
    rw [hshape, hstrip1,
      if_pos (startsWithChars_append_self fenceJson
        (wi₁ ++ (('\x7b' :: jt) ++ (wi₂ ++ fence3)))),
      hdrop7, if_neg hn3]
    exact htail
  · have hshape : w₁ ++ (fence3 ++ (wi₁ ++ (('\x7b' :: jt) ++
        (wi₂ ++ (fence3 ++ w₂))))) =
        w₁ ++ ((fence3 ++ (wi₁ ++ (('\x7b' :: jt) ++ (wi₂ ++ fence3)))) ++ w₂) := by
      simp [List.append_assoc]
    have hcore2last : ∀ c,
        (fence3 ++ (wi₁ ++ (('\x7b' :: jt) ++ (wi₂ ++ fence3)))).getLast? =
          some c → isPyWS c = false := by
      intro c hc
      rw [show fence3 ++ (wi₁ ++ (('\x7b' :: jt) ++ (wi₂ ++ fence3))) =
          (fence3 ++ (wi₁ ++ (('\x7b' :: jt) ++ wi₂))) ++ fence3 from by
            simp [List.append_assoc],
        getLast?_append_fence3] at hc
      have h0 : btick = c := Option.some.inj hc
      rw [← h0]
      decide
    have hstrip2 : pyStrip (w₁ ++
        ((fence3 ++ (wi₁ ++ (('\x7b' :: jt) ++ (wi₂ ++ fence3)))) ++ w₂)) =
        fence3 ++ (wi₁ ++ (('\x7b' :: jt) ++ (wi₂ ++ fence3))) :=
      pyStrip_sandwich w₁ w₂ _ hw₁ hw₂ (by simp [fence3])
        (fun c hc => by
          have h0 : btick = c := Option.some.inj hc
          rw [← h0]
          decide)
        hcore2last
    have hstartJ2 : startsWithChars fenceJson
        (fence3 ++ (wi₁ ++ (('\x7b' :: jt) ++ (wi₂ ++ fence3)))) = false := by
      rw [show fenceJson = fence3 ++ (['j', 's', 'o', 'n'] : List Char) from rfl,
        startsWithChars_shift, hxeq]
      exact startsWithChars_head_ne 'j' cx ['s', 'o', 'n'] tx
        (fun he => hxj he.symm)
    have hdrop3 : (fence3 ++ (wi₁ ++ (('\x7b' :: jt) ++ (wi₂ ++ fence3)))).drop 3 =
        wi₁ ++ (('\x7b' :: jt) ++ (wi₂ ++ fence3)) := rfl
    have hnJ2 : ¬ (startsWithChars fenceJson
        (fence3 ++ (wi₁ ++ (('\x7b' :: jt) ++ (wi₂ ++ fence3)))) = true) := by
      rw [hstartJ2]
      exact Bool.false_ne_true
    simp only [cleanResultText]
    rw [hshape, hstrip2, if_neg hnJ2,
      if_pos (startsWithChars_append_self fence3
        (wi₁ ++ (('\x7b' :: jt) ++ (wi₂ ++ fence3)))),
      hdrop3]
    exact htail
  · have hstripj : pyStrip ('\x7b' :: jt) = '\x7b' :: jt := by
      have h0 := pyStrip_sandwich [] [] ('\x7b' :: jt) (by simp) (by simp)
        (List.cons_ne_nil _ _) hheadj hlastj
      simpa using h0
    have hstartJ : startsWithChars fenceJson ('\x7b' :: jt) = false :=
      startsWithChars_head_ne btick '\x7b' [btick, btick, 'j', 's', 'o', 'n'] jt
        (by decide)
    have hstart3 : startsWithChars fence3 ('\x7b' :: jt) = false :=
      startsWithChars_head_ne btick '\x7b' [btick, btick] jt (by decide)
    have hendsj : endsWithChars fence3 ('\x7b' :: jt) = false := by
      apply endsWith_fence3_false _ (List.cons_ne_nil _ _)
      intro c hc
      have h0 : ('\x7d' : Char) = c := Option.some.inj (hjlast.symm.trans hc)
      rw [← h0]
      decide
    have hnJ : ¬ (startsWithChars fenceJson ('\x7b' :: jt) = true) := by
      rw [hstartJ]
      exact Bool.false_ne_true
    have hn3 : ¬ (startsWithChars fence3 ('\x7b' :: jt) = true) := by
      rw [hstart3]
      exact Bool.false_ne_true
    have hnE : ¬ (endsWithChars fence3 ('\x7b' :: jt) = true) := by
      rw [hendsj]
      exact Bool.false_ne_true
    simp only [cleanResultText]
    rw [hstripj, if_neg hnJ, if_neg hn3, if_neg hnE]
    exact hstripj

/-- Witness for C9 at the concrete object text `{}` with one space /
newline of whitespace in each position. -/
theorem fence_stripping_spec_witness :
    cleanResultText ([' '] ++ (fenceJson ++ (['\n'] ++ (['\x7b', '\x7d'] ++
      (['\n'] ++ (fence3 ++ ['\n'])))))) = ['\x7b', '\x7d'] ∧
    cleanResultText ([' '] ++ (fence3 ++ (['\n'] ++ (['\x7b', '\x7d'] ++
      (['\n'] ++ (fence3 ++ ['\n'])))))) = ['\x7b', '\x7d'] ∧
    cleanResultText ['\x7b', '\x7d'] = ['\x7b', '\x7d'] :=
  fence_stripping_spec ['\x7b', '\x7d'] [' '] ['\n'] ['\n'] ['\n']
    (by decide) (by decide) (by decide) (by decide) (by decide) (by decide)

end AINews
